import Mathlib

/-!
Shallow embedding of `src/main.rs` of the public-relations tool.

The program reads a list of pull-request descriptors, synchronizes a local
branch `pull-request-<number>` per descriptor (fetching when absent or stale),
aggregates the old-side line ranges of each pull request's diff hunks into a
per-file map, and renders one row per non-hidden file of the repository tree
with an impact fraction `1 - touched/total`.

Machine integers (`u32`) are modelled as `Nat`; paths as `String`
(segment lists for the filesystem walk); `HashMap` as an association list
with the insert/entry semantics of the Rust code; fallible control flow as
`Except String`.
-/

/-- One structural diff hunk together with the old-file path of its delta,
as seen by the `diff.foreach` hunk callback: `diff_delta.old_file().path()`,
`diff_hunk.old_start()`, `diff_hunk.old_lines()`. -/
structure DiffHunk where
  old_path : Option String
  old_start : Nat
  old_lines : Nat
  deriving DecidableEq, Repr

/-- A pull-request descriptor (struct `PullRequest` in the source), extended
with the structural diff of its merge-base tree against its head tree: the
hunks are the sequence of `(diff_delta, diff_hunk)` pairs that git2's
`diff.foreach` would report for this pull request, taken as input to the
embedding since the git object store is external. -/
structure PullRequest where
  number : Nat
  base_ref_name : String
  head_ref_name : String
  head_ref_oid : String
  head_repo_name : String
  head_owner_login : String
  hunks : List DiffHunk
  deriving DecidableEq, Repr

/-- `type LineLookup = HashMap<PathBuf, Vec<u32>>`, as an association list. -/
abbrev LineLookup := List (String × List Nat)

/-- `let ignore_files = [PathBuf::from("Cargo.lock")];` -/
def ignore_files : List String := ["Cargo.lock"]

/-- Association-list lookup, the membership test underlying
`HashMap::contains_key` / `HashMap::entry`. -/
def lookupLines : LineLookup → String → Option (List Nat)
  | [], _ => none
  | (k, v) :: rest, p => if k = p then some v else lookupLines rest p

/-- `value.contains_key(entry)` of the renderer. -/
def containsKey (m : LineLookup) (p : String) : Bool :=
  (lookupLines m p).isSome

/-- `file_line_map.entry(path).and_modify(|lines| lines.append(&mut old_lines)).or_insert_with(|| old_lines)`:
append to the existing value when the key is present, otherwise add a new
entry. -/
def appendLines : LineLookup → String → List Nat → LineLookup
  | [], p, v => [(p, v)]
  | (k, w) :: rest, p, v =>
    if k = p then (k, w ++ v) :: rest else (k, w) :: appendLines rest p v

/-- The body of the hunk callback (lines 112-137 of `main.rs`): skip when the
delta has no old path, skip when `old_lines == 0`, skip ignored files, else
append the old-side range `[old_start, old_start + old_lines)`. -/
def processHunk (m : LineLookup) (h : DiffHunk) : LineLookup :=
  match h.old_path with
  | none => m
  | some path =>
    if h.old_lines ≠ 0 then
      if path ∈ ignore_files then m
      else appendLines m path (List.range' h.old_start h.old_lines)
    else m

/-- Folding the hunk callback over a diff's hunks, starting from
`LineLookup::new()`, gives the pull request's completed `file_line_map`. -/
def computeLineMap (pr : PullRequest) : LineLookup :=
  pr.hunks.foldl processHunk []

/-- `HashMap<u32, LineLookup>`, the aggregate `pr_lines_lookup`. -/
abbrev AggregateLookup := List (Nat × LineLookup)

/-- Aggregate-map lookup by pull-request number. -/
def lookupAgg : AggregateLookup → Nat → Option LineLookup
  | [], _ => none
  | (k, v) :: rest, n => if k = n then some v else lookupAgg rest n

/-- `pr_lines_lookup.insert(pr.number, file_line_map)`: `HashMap::insert`
replaces the value of an existing key and otherwise adds a new entry. -/
def insertLookup : AggregateLookup → Nat → LineLookup → AggregateLookup
  | [], n, m => [(n, m)]
  | (k, v) :: rest, n, m =>
    if k = n then (k, m) :: rest else (k, v) :: insertLookup rest n m

/-- The aggregation loop (lines 92-142 of `main.rs`) over an already-taken
list of pull requests. -/
def buildLookup (prs : List PullRequest) : AggregateLookup :=
  prs.foldl (fun acc pr => insertLookup acc pr.number (computeLineMap pr)) []

/-- The subsequence of descriptors enumerated by the synchronizer loop:
`for pull_request in data.iter().take(100)` (line 62). -/
def syncProcessed (data : List PullRequest) : List PullRequest :=
  data.take 100

/-- The subsequence of descriptors enumerated by the aggregator loop:
`for pr in data.iter().take(100)` (line 92). -/
def aggProcessed (data : List PullRequest) : List PullRequest :=
  data.take 100

/-- The aggregate lookup built by the program from the full descriptor
list. -/
def aggregateLookup (data : List PullRequest) : AggregateLookup :=
  buildLookup (aggProcessed data)

/-- Keys of the aggregate map, in storage order. -/
def aggKeys (m : AggregateLookup) : List Nat :=
  m.map Prod.fst

/-- The aggregation fold, starting from an arbitrary accumulator. -/
def buildFrom (acc : AggregateLookup) (prs : List PullRequest) : AggregateLookup :=
  prs.foldl (fun acc pr => insertLookup acc pr.number (computeLineMap pr)) acc

/-! Renderer counters of `file_list_entry` (lines 208-216 of `main.rs`). -/

/-- `let total_pr_count = pr_lines_lookup.len();` -/
def total_pr_count (lookup : AggregateLookup) : Nat :=
  lookup.length

/-- `pr_lines_lookup.iter().map(|(_, value)| value.contains_key(entry) as u32).sum()`:
the number of aggregate entries whose touched-line map contains the path. -/
def in_pr_count (lookup : AggregateLookup) (entry : String) : Nat :=
  List.countP (fun kv => containsKey kv.2 entry) lookup

/-- `let fraction: f64 = 1.0 - (in_pr_count as f64 / total_pr_count as f64);`,
modelled over `ℚ` (the operands are small exact counts). -/
def fileImpactFraction (lookup : AggregateLookup) (entry : String) : ℚ :=
  1 - (in_pr_count lookup entry : ℚ) / (total_pr_count lookup : ℚ)

/-!
The Branch Synchronizer (lines 62-83 and 238-259 of `main.rs`).

The synchronizer only ever reads and writes local branches named
`pull-request-<number>`, so the local branch store is modelled as a map from
the pull-request number to the tip commit id of `pull-request-<number>`
(absent when `repo.find_branch` fails). A successful fetch with refspec
`head_ref_name:pull-request-<number>` makes the local branch tip equal the
descriptor's `head_ref_oid`; this encodes the no-upstream-change assumption
under which the idempotence property is stated.
-/

/-- Tip commit ids of the local branches `pull-request-<n>`, by number. -/
def BranchState := Nat → Option String

/-- Lines 68-82: fetch when the local pull-request branch is absent, or when
its tip commit id differs from the descriptor's `head_ref_oid`. -/
def needsFetch (bs : BranchState) (pr : PullRequest) : Bool :=
  match bs pr.number with
  | none => true
  | some oid => if oid = pr.head_ref_oid then false else true

/-- Effect of a successful `git fetch <origin> <head_ref_name>:pull-request-<n>`
on the local branch store. -/
def doFetch (bs : BranchState) (pr : PullRequest) : BranchState :=
  fun n => if n = pr.number then some pr.head_ref_oid else bs n

/-- One iteration of the synchronizer loop, also counting fetch invocations. -/
def syncStep (s : BranchState × Nat) (pr : PullRequest) : BranchState × Nat :=
  if needsFetch s.1 pr then (doFetch s.1 pr, s.2 + 1) else s

/-- The synchronizer loop over the first 100 descriptors, with every fetch
succeeding; returns the final branch store and the number of fetches run. -/
def syncRun (s : BranchState × Nat) (data : List PullRequest) : BranchState × Nat :=
  (syncProcessed data).foldl syncStep s

/-- Descriptors agree on head commits: two descriptors with the same number
name the same head commit. This holds of any real `gh pr list` snapshot and
expresses the claim's premise that nothing changed upstream. -/
def numbersConsistent (prs : List PullRequest) : Prop :=
  ∀ p ∈ prs, ∀ q ∈ prs, p.number = q.number → p.head_ref_oid = q.head_ref_oid

/-- The message of `anyhow::bail!` in `fetch_pull_request_branch`. -/
def fetchErrMsg (pr : PullRequest) : String :=
  "Failed to run git fetch for git@github.com:" ++ pr.head_owner_login ++ "/"
    ++ pr.head_repo_name ++ " " ++ pr.head_ref_name ++ ":pull-request-"
    ++ toString pr.number

/-- The synchronizer loop with fallible fetches: a fetch exiting non-zero
(`fetchOk pr = false`) turns into an error that aborts the loop, as the `?`
operator does at line 78/81 of `main.rs`. -/
def syncRunE (fetchOk : PullRequest → Bool) :
    BranchState → List PullRequest → Except String BranchState
  | bs, [] => .ok bs
  | bs, pr :: rest =>
    if needsFetch bs pr then
      if fetchOk pr then syncRunE fetchOk (doFetch bs pr) rest
      else .error (fetchErrMsg pr)
    else syncRunE fetchOk bs rest

/-!
The Report Renderer's filesystem walk (lines 150-177 of `main.rs`):
`WalkDir::new(repo_path).sort_by_file_name()` with
`filter_entry(|e| !is_hidden(e))`, keeping non-directories and relativizing
each path to the repository root. The working tree below the repository root
is modelled as a forest of named entries; paths are segment lists.
-/

inductive FsEntry where
  | file (name : String)
  | dir (name : String) (children : List FsEntry)

/-- The entry's file name. -/
def FsEntry.name : FsEntry → String
  | .file n => n
  | .dir n _ => n

/-- `fn is_hidden`: the name starts with the hidden-file marker. -/
def is_hidden (s : String) : Bool :=
  s.startsWith "."

/-- Insertion step of sorting a directory's entries by file name. -/
def insertByName (e : FsEntry) : List FsEntry → List FsEntry
  | [] => [e]
  | x :: xs => if e.name ≤ x.name then e :: x :: xs else x :: insertByName e xs

/-- `sort_by_file_name` applied to one directory's entries. -/
def sortByName (l : List FsEntry) : List FsEntry :=
  l.foldr insertByName []

mutual

/-- Recursively sort every directory's children by file name, as `WalkDir`'s
`sort_by_file_name` does at each directory it reads. -/
def sortEntry : FsEntry → FsEntry
  | .file n => .file n
  | .dir n cs => .dir n (sortByName (sortList cs))

def sortList : List FsEntry → List FsEntry
  | [] => []
  | c :: cs => sortEntry c :: sortList cs

end

mutual

/-- Depth-first walk of one (already sorted) entry under path `pre`:
`filter_entry(!is_hidden)` prunes a hidden entry together with its subtree;
directories themselves yield no path (`file_type().is_dir()` rows are
dropped); a kept file yields its root-relative path. -/
def walkEntry (pre : List String) : FsEntry → List (List String)
  | .file n => if is_hidden n then [] else [pre ++ [n]]
  | .dir n cs => if is_hidden n then [] else walkList (pre ++ [n]) cs

def walkList (pre : List String) : List FsEntry → List (List String)
  | [] => []
  | c :: cs => walkEntry pre c ++ walkList pre cs

end

/-- The full walk of the repository root's children: sort every level by
file name, then walk depth first. -/
def repoWalk (cs : List FsEntry) : List (List String) :=
  walkList [] (sortByName (sortList cs))

mutual

/-- Every file path of the forest, hidden or not, in tree order. -/
def allPathsEntry : FsEntry → List (List String)
  | .file n => [[n]]
  | .dir n cs => (allPathsList cs).map (fun q => n :: q)

def allPathsList : List FsEntry → List (List String)
  | [] => []
  | c :: cs => allPathsEntry c ++ allPathsList cs

end

mutual

/-- Well-formed directory contents: sibling names are distinct at every
level, as they are in a real filesystem. -/
def wfEntry : FsEntry → Bool
  | .file _ => true
  | .dir _ cs => decide ((cs.map FsEntry.name).Nodup) && wfList cs

def wfList : List FsEntry → Bool
  | [] => true
  | c :: cs => wfEntry c && wfList cs

end

/-- Well-formed forest: distinct names at the root level and in every
directory below. -/
def wfForest (cs : List FsEntry) : Bool :=
  decide ((cs.map FsEntry.name).Nodup) && wfList cs

/-- Lexicographic strict order on paths as segment lists, the order in which
the sorted depth-first walk emits file paths. -/
def pathLexLt : List String → List String → Bool
  | [], [] => false
  | [], _ :: _ => true
  | _ :: _, [] => false
  | a :: p, b :: q => if a < b then true else if a = b then pathLexLt p q else false

/-- One renderer row per walked file: the root-relative path and its impact
fraction (the color swatch is a fixed function of the fraction). -/
def renderRows (fs : List FsEntry) (lookup : AggregateLookup) :
    List (List String × ℚ) :=
  (repoWalk fs).map (fun p => (p, fileImpactFraction lookup (String.intercalate "/" p)))

/-- The whole run of `main`: synchronize (aborting on a failed fetch), then
aggregate, then render. A `.error` outcome means no aggregate lookup is
consumed and no output document is produced. -/
def runPipeline (fetchOk : PullRequest → Bool) (bs : BranchState)
    (fs : List FsEntry) (data : List PullRequest) :
    Except String (List (List String × ℚ)) :=
  match syncRunE fetchOk bs (syncProcessed data) with
  | .error e => .error e
  | .ok _ => .ok (renderRows fs (aggregateLookup data))

example :
    lookupLines (processHunk [] ⟨some "f.rs", 10, 3⟩) "f.rs" = some [10, 11, 12] := by
  decide

example : processHunk [] ⟨some "Cargo.lock", 10, 3⟩ = [] := by decide

example : processHunk [("a", [1])] ⟨some "a", 5, 0⟩ = [("a", [1])] := by decide

/-! Association-list lemmas about `appendLines`, `lookupLines`. -/

theorem lookupLines_appendLines_self (m : LineLookup) (p : String) (v : List Nat) :
    lookupLines (appendLines m p v) p = some ((lookupLines m p).getD [] ++ v) := by
  induction m with
  | nil => simp [appendLines, lookupLines]
  | cons kv rest ih =>
    obtain ⟨k, w⟩ := kv
    by_cases hk : k = p
    · subst hk
      simp [appendLines, lookupLines]
    · simp [appendLines, lookupLines, hk, ih]

theorem lookupLines_appendLines_ne (m : LineLookup) (p q : String) (v : List Nat)
    (hqp : q ≠ p) :
    lookupLines (appendLines m p v) q = lookupLines m q := by
  induction m with
  | nil => simp [appendLines, lookupLines, Ne.symm hqp]
  | cons kv rest ih =>
    obtain ⟨k, w⟩ := kv
    by_cases hk : k = p
    · subst hk
      simp [appendLines, lookupLines, Ne.symm hqp]
    · simp only [appendLines, if_neg hk, lookupLines]
      by_cases hkq : k = q <;> simp [hkq, ih]

theorem lookupLines_processHunk_of_ignored (m : LineLookup) (h : DiffHunk)
    (p : String) (hp : p ∈ ignore_files) :
    lookupLines (processHunk m h) p = lookupLines m p := by
  unfold processHunk
  match hpath : h.old_path with
  | none => rfl
  | some path =>
    by_cases hz : h.old_lines ≠ 0
    · by_cases hig : path ∈ ignore_files
      · simp [hz, hig]
      · have hne : p ≠ path := fun hpq => hig (hpq ▸ hp)
        simp [hz, hig, lookupLines_appendLines_ne m path p _ hne]
    · simp [hz]

theorem lookupLines_foldl_of_ignored (hs : List DiffHunk) (m : LineLookup)
    (p : String) (hp : p ∈ ignore_files) :
    lookupLines (hs.foldl processHunk m) p = lookupLines m p := by
  induction hs generalizing m with
  | nil => rfl
  | cons h rest ih =>
    simp only [List.foldl_cons]
    rw [ih (processHunk m h), lookupLines_processHunk_of_ignored m h p hp]

/-- C6: the configured lock-file path `Cargo.lock` is never a key of any pull
request's touched-line map, whatever the diff hunks of that pull request. -/
theorem c6_lock_file_never_recorded (pr : PullRequest) :
    lookupLines (computeLineMap pr) "Cargo.lock" = none := by
  have hmem : "Cargo.lock" ∈ ignore_files := by decide
  rw [computeLineMap, lookupLines_foldl_of_ignored pr.hunks [] "Cargo.lock" hmem]
  rfl

/-- C2: a hunk whose delta has old path `p`, with `p` not ignored and a
non-zero old-side line count, appends exactly the line numbers of the
half-open range `[old_start, old_start + old_lines)` to `p`'s entry of the
touched-line map, leaves every other key unchanged, and the appended list
enumerates exactly that interval. -/
theorem c2_hunk_records_old_range (m : LineLookup) (h : DiffHunk) (p : String)
    (hpath : h.old_path = some p) (hig : p ∉ ignore_files) (hnz : h.old_lines ≠ 0) :
    lookupLines (processHunk m h) p
        = some ((lookupLines m p).getD [] ++ List.range' h.old_start h.old_lines) ∧
      (∀ q, q ≠ p → lookupLines (processHunk m h) q = lookupLines m q) ∧
      (∀ x, x ∈ List.range' h.old_start h.old_lines ↔
        h.old_start ≤ x ∧ x < h.old_start + h.old_lines) := by
  refine ⟨?_, ?_, ?_⟩
  · unfold processHunk
    rw [hpath]
    simp [hnz, hig, lookupLines_appendLines_self]
  · intro q hq
    unfold processHunk
    rw [hpath]
    simp [hnz, hig, lookupLines_appendLines_ne m p q _ hq]
  · intro x
    exact List.mem_range'_1

theorem containsKey_nil (p : String) : containsKey [] p = false := rfl

theorem containsKey_appendLines_self (m : LineLookup) (p : String) (v : List Nat) :
    containsKey (appendLines m p v) p = true := by
  simp [containsKey, lookupLines_appendLines_self]

theorem processHunk_of_old_lines_zero (m : LineLookup) (h : DiffHunk)
    (hz : h.old_lines = 0) : processHunk m h = m := by
  obtain ⟨op, s, n⟩ := h
  cases op <;> simp_all [processHunk]

/-- C3: a hunk with zero old-side lines leaves the touched-line map
unchanged; a pull request with no diff hunks gets an empty touched-line map;
and an aggregate entry with an empty touched-line map contributes nothing to
any file's touch count. -/
theorem c3_zero_old_lines_records_nothing :
    (∀ (m : LineLookup) (h : DiffHunk), h.old_lines = 0 → processHunk m h = m) ∧
    (∀ pr : PullRequest, pr.hunks = [] → computeLineMap pr = []) ∧
    (∀ (l1 l2 : AggregateLookup) (n : Nat) (entry : String),
      in_pr_count (l1 ++ (n, ([] : LineLookup)) :: l2) entry
        = in_pr_count (l1 ++ l2) entry) := by
  refine ⟨processHunk_of_old_lines_zero, ?_, ?_⟩
  · intro pr hpr
    rw [computeLineMap, hpr]
    rfl
  · intro l1 l2 n entry
    simp [in_pr_count, List.countP_append, List.countP_cons, containsKey_nil]

/-- Witness for C3: a concrete zero-old-lines hunk changes nothing, a
hunk-less pull request yields the empty map, and a concrete empty-map entry
leaves a file's touch count unchanged. -/
theorem c3_zero_old_lines_records_nothing_witness :
    processHunk [("a", [1])] ⟨some "a", 5, 0⟩ = [("a", [1])] ∧
      computeLineMap ⟨7, "main", "feat", "oid", "repo", "user", []⟩ = [] ∧
      in_pr_count ([(1, [("b", [2])])] ++ (2, ([] : LineLookup)) :: []) "b"
        = in_pr_count ([(1, [("b", [2])])] ++ []) "b" :=
  ⟨c3_zero_old_lines_records_nothing.1 _ _ rfl,
    c3_zero_old_lines_records_nothing.2.1 _ rfl,
    c3_zero_old_lines_records_nothing.2.2 [(1, [("b", [2])])] [] 2 "b"⟩

/-- C1: with a non-empty aggregate lookup, the impact fraction of every file
path equals `1 - in_pr_count / total_pr_count`, lies in `[0, 1]`, equals `1`
for a path contained in no entry's map and `0` for a path contained in every
entry's map. -/
theorem c1_file_impact_fraction (lookup : AggregateLookup) (entry : String)
    (hne : lookup ≠ []) :
    fileImpactFraction lookup entry
        = 1 - (in_pr_count lookup entry : ℚ) / (total_pr_count lookup : ℚ) ∧
      0 ≤ fileImpactFraction lookup entry ∧
      fileImpactFraction lookup entry ≤ 1 ∧
      ((∀ kv ∈ lookup, containsKey kv.2 entry = false) →
        fileImpactFraction lookup entry = 1) ∧
      ((∀ kv ∈ lookup, containsKey kv.2 entry = true) →
        fileImpactFraction lookup entry = 0) := by
  have htpos : 0 < lookup.length := List.length_pos.mpr hne
  have htq : (0 : ℚ) < (total_pr_count lookup : ℚ) := by
    rw [total_pr_count]
    exact_mod_cast htpos
  have hle : in_pr_count lookup entry ≤ total_pr_count lookup :=
    List.countP_le_length _
  refine ⟨rfl, ?_, ?_, ?_, ?_⟩
  · rw [fileImpactFraction, sub_nonneg]
    rw [div_le_one htq]
    exact_mod_cast hle
  · rw [fileImpactFraction]
    have : (0 : ℚ) ≤ (in_pr_count lookup entry : ℚ) / (total_pr_count lookup : ℚ) :=
      div_nonneg (by positivity) (le_of_lt htq)
    linarith
  · intro hnone
    have hz : in_pr_count lookup entry = 0 := by
      rw [in_pr_count, List.countP_eq_zero]
      intro kv hkv
      simp [hnone kv hkv]
    rw [fileImpactFraction, hz]
    simp
  · intro hall
    have hfull : in_pr_count lookup entry = total_pr_count lookup := by
      rw [in_pr_count, total_pr_count, List.countP_eq_length]
      intro kv hkv
      simp [hall kv hkv]
    rw [fileImpactFraction, hfull, div_self (ne_of_gt htq)]
    simp

/-- Witness for C1: the spec's scenario of a file touched by no entry of a
one-entry lookup, whose fraction is `1`. -/
theorem c1_file_impact_fraction_witness :
    fileImpactFraction [(1, [("b.txt", [1])])] "a.txt"
        = 1 - (in_pr_count [(1, [("b.txt", [1])])] "a.txt" : ℚ)
            / (total_pr_count [(1, [("b.txt", [1])])] : ℚ) ∧
      0 ≤ fileImpactFraction [(1, [("b.txt", [1])])] "a.txt" ∧
      fileImpactFraction [(1, [("b.txt", [1])])] "a.txt" ≤ 1 ∧
      ((∀ kv ∈ ([(1, [("b.txt", [1])])] : AggregateLookup),
          containsKey kv.2 "a.txt" = false) →
        fileImpactFraction [(1, [("b.txt", [1])])] "a.txt" = 1) ∧
      ((∀ kv ∈ ([(1, [("b.txt", [1])])] : AggregateLookup),
          containsKey kv.2 "a.txt" = true) →
        fileImpactFraction [(1, [("b.txt", [1])])] "a.txt" = 0) :=
  c1_file_impact_fraction [(1, [("b.txt", [1])])] "a.txt" (by decide)

/-- C4: the synchronizer loop and the aggregator loop enumerate the same
subsequence of descriptors, namely the first 100 in the supplied order, and
everything beyond the first 100 is dropped. -/
theorem c4_same_first_hundred (data : List PullRequest) :
    syncProcessed data = aggProcessed data ∧
      syncProcessed data = data.take 100 ∧
      (syncProcessed data).length = min 100 data.length ∧
      syncProcessed data ++ data.drop 100 = data := by
  refine ⟨rfl, rfl, ?_, ?_⟩
  · simp [syncProcessed]
  · simp [syncProcessed]

theorem containsKey_processHunk (m : LineLookup) (h : DiffHunk) (p : String) :
    containsKey (processHunk m h) p = true ↔
      containsKey m p = true ∨
        (h.old_path = some p ∧ h.old_lines ≠ 0 ∧ p ∉ ignore_files) := by
  obtain ⟨op, s, n⟩ := h
  cases op with
  | none => simp [processHunk]
  | some path =>
    by_cases hz : n ≠ 0
    · by_cases hig : path ∈ ignore_files
      · simp only [processHunk, if_pos hz, if_pos hig]
        constructor
        · exact Or.inl
        · rintro (hk | ⟨hpq, -, hnig⟩)
          · exact hk
          · exact absurd ((Option.some.inj hpq) ▸ hig) hnig
      · simp only [processHunk, if_pos hz, if_neg hig]
        by_cases hpq : p = path
        · subst hpq
          simp [containsKey_appendLines_self, hz, hig]
        · rw [containsKey, lookupLines_appendLines_ne m path p _ hpq, ← containsKey]
          constructor
          · exact Or.inl
          · rintro (hk | ⟨hpq2, -, -⟩)
            · exact hk
            · exact absurd (Option.some.inj hpq2) (fun e => hpq e.symm)
    · simp only [processHunk, if_neg hz]
      push_neg at hz
      simp [hz]

theorem containsKey_foldl_processHunk (hs : List DiffHunk) (m : LineLookup)
    (p : String) :
    containsKey (hs.foldl processHunk m) p = true ↔
      containsKey m p = true ∨
        ∃ h ∈ hs, h.old_path = some p ∧ h.old_lines ≠ 0 ∧ p ∉ ignore_files := by
  induction hs generalizing m with
  | nil => simp
  | cons h rest ih =>
    simp only [List.foldl_cons]
    rw [ih (processHunk m h)]
    rw [containsKey_processHunk m h p]
    constructor
    · rintro ((hk | htrig) | ⟨h2, hmem, htrig⟩)
      · exact Or.inl hk
      · exact Or.inr ⟨h, List.mem_cons_self h rest, htrig⟩
      · exact Or.inr ⟨h2, List.mem_cons_of_mem h hmem, htrig⟩
    · rintro (hk | ⟨h2, hmem, htrig⟩)
      · exact Or.inl (Or.inl hk)
      · rcases List.mem_cons.mp hmem with heq | hmem2
        · exact Or.inl (Or.inr (heq ▸ htrig))
        · exact Or.inr ⟨h2, hmem2, htrig⟩

theorem lookupLines_appendLines_cases (m : LineLookup) (p q : String)
    (v u : List Nat) (h : lookupLines (appendLines m p v) q = some u) :
    (q = p ∧ u = (lookupLines m p).getD [] ++ v) ∨ lookupLines m q = some u := by
  by_cases hq : q = p
  · subst hq
    rw [lookupLines_appendLines_self] at h
    exact Or.inl ⟨rfl, (Option.some.inj h).symm⟩
  · right
    rwa [lookupLines_appendLines_ne m p q v hq] at h

theorem values_nonempty_processHunk (m : LineLookup) (h : DiffHunk)
    (hm : ∀ q v, lookupLines m q = some v → v ≠ []) :
    ∀ q v, lookupLines (processHunk m h) q = some v → v ≠ [] := by
  intro q v hv
  obtain ⟨op, s, n⟩ := h
  cases op with
  | none => exact hm q v hv
  | some path =>
    by_cases hz : n ≠ 0
    · by_cases hig : path ∈ ignore_files
      · simp only [processHunk, if_pos hz, if_pos hig] at hv
        exact hm q v hv
      · simp only [processHunk, if_pos hz, if_neg hig] at hv
        rcases lookupLines_appendLines_cases m path q _ v hv with ⟨-, hu⟩ | hold
        · subst hu
          intro hnil
          rcases List.append_eq_nil.mp hnil with ⟨-, hr⟩
          have hlen := congrArg List.length hr
          simp [List.length_range'] at hlen
          exact hz hlen
        · exact hm q v hold
    · simp only [processHunk, if_neg hz] at hv
      exact hm q v hv

theorem values_nonempty_foldl (hs : List DiffHunk) (m : LineLookup)
    (hm : ∀ q v, lookupLines m q = some v → v ≠ []) :
    ∀ q v, lookupLines (hs.foldl processHunk m) q = some v → v ≠ [] := by
  induction hs generalizing m with
  | nil => exact hm
  | cons h rest ih =>
    simp only [List.foldl_cons]
    exact ih (processHunk m h) (values_nonempty_processHunk m h hm)

/-- C9: in a completed touched-line map, a path is a key exactly when some
hunk with that old path, a non-zero old-side line count and a non-ignored
path was recorded, and every key maps to a non-empty sequence of line
numbers. -/
theorem c9_keys_nonempty_iff_recorded (pr : PullRequest) (p : String) :
    (containsKey (computeLineMap pr) p = true ↔
      ∃ h ∈ pr.hunks, h.old_path = some p ∧ h.old_lines ≠ 0 ∧ p ∉ ignore_files) ∧
    (∀ v, lookupLines (computeLineMap pr) p = some v → v ≠ []) := by
  constructor
  · rw [computeLineMap, containsKey_foldl_processHunk pr.hunks [] p]
    simp [containsKey_nil]
  · intro v
    exact values_nonempty_foldl pr.hunks [] (by intro q w hw; cases hw) p v

/-! Lemmas about the aggregate map `insertLookup` / `buildLookup`. -/

theorem lookupAgg_insertLookup (acc : AggregateLookup) (k n : Nat) (m : LineLookup) :
    lookupAgg (insertLookup acc k m) n = if k = n then some m else lookupAgg acc n := by
  induction acc with
  | nil => simp [insertLookup, lookupAgg]
  | cons kv rest ih =>
    obtain ⟨k2, v2⟩ := kv
    by_cases h2 : k2 = k
    · subst h2
      by_cases hn : k2 = n <;> simp [insertLookup, lookupAgg, hn]
    · by_cases hn : k2 = n
      · subst hn
        have : ¬k = k2 := fun e => h2 e.symm
        simp [insertLookup, h2, lookupAgg, this]
      · simp [insertLookup, h2, lookupAgg, hn, ih]

theorem aggKeys_insertLookup (acc : AggregateLookup) (k : Nat) (m : LineLookup) :
    aggKeys (insertLookup acc k m)
      = if k ∈ aggKeys acc then aggKeys acc else aggKeys acc ++ [k] := by
  induction acc with
  | nil => simp [insertLookup, aggKeys]
  | cons kv rest ih =>
    obtain ⟨k2, v2⟩ := kv
    by_cases h2 : k2 = k
    · subst h2
      simp [insertLookup, aggKeys]
    · have hkk : ¬k = k2 := fun e => h2 e.symm
      have hcons : insertLookup ((k2, v2) :: rest) k m
          = (k2, v2) :: insertLookup rest k m := by
        simp [insertLookup, h2]
      rw [hcons]
      simp only [aggKeys, List.map_cons] at ih ⊢
      rw [ih]
      by_cases hmem : k ∈ List.map Prod.fst rest
      · simp [hmem, hkk]
      · simp [hmem, hkk]

theorem length_eq_aggKeys_length (m : AggregateLookup) :
    m.length = (aggKeys m).length := by
  simp [aggKeys]

theorem buildLookup_eq_buildFrom (prs : List PullRequest) :
    buildLookup prs = buildFrom [] prs := rfl

theorem lookupAgg_buildFrom (prs : List PullRequest) (acc : AggregateLookup) (n : Nat) :
    lookupAgg (buildFrom acc prs) n
      = match (prs.filter (fun pr => pr.number == n)).getLast? with
        | some pr => some (computeLineMap pr)
        | none => lookupAgg acc n := by
  induction prs generalizing acc with
  | nil => simp [buildFrom]
  | cons pr rest ih =>
    have hstep : buildFrom acc (pr :: rest)
        = buildFrom (insertLookup acc pr.number (computeLineMap pr)) rest := rfl
    rw [hstep, ih]
    cases hf : rest.filter (fun pr => pr.number == n) with
    | nil =>
      by_cases hn : pr.number = n
      · simp [List.filter_cons, hn, hf, lookupAgg_insertLookup]
      · simp [List.filter_cons, hn, hf, lookupAgg_insertLookup]
    | cons q qrest =>
      cases hq : (q :: qrest).getLast? with
      | none =>
        have hns : (q :: qrest) ≠ [] := by simp
        rw [← List.getLast?_isSome] at hns
        simp [hq] at hns
      | some z =>
        by_cases hn : pr.number = n
        · simp [List.filter_cons, hn, hf, hq, List.getLast?_cons_cons]
        · simp [List.filter_cons, hn, hf, hq]

theorem aggKeys_buildFrom_nodup (prs : List PullRequest) (acc : AggregateLookup)
    (hnd : (aggKeys acc).Nodup) : (aggKeys (buildFrom acc prs)).Nodup := by
  induction prs generalizing acc with
  | nil => exact hnd
  | cons pr rest ih
  =>
    have hstep : buildFrom acc (pr :: rest)
        = buildFrom (insertLookup acc pr.number (computeLineMap pr)) rest := rfl
    rw [hstep]
    apply ih
    rw [aggKeys_insertLookup]
    by_cases hmem : pr.number ∈ aggKeys acc
    · simpa [hmem] using hnd
    · simp only [hmem, if_false]
      simpa [List.nodup_append] using ⟨hnd, hmem⟩

theorem length_buildFrom (prs : List PullRequest) (acc : AggregateLookup)
    (hnd : (aggKeys acc).Nodup) :
    (buildFrom acc prs).length
      = ((aggKeys acc).toFinset ∪ (prs.map (fun pr => pr.number)).toFinset).card := by
  induction prs generalizing acc with
  | nil =>
    simp only [buildFrom, List.foldl_nil, List.map_nil, List.toFinset_nil,
      Finset.union_empty]
    rw [length_eq_aggKeys_length, List.toFinset_card_of_nodup hnd]
  | cons pr rest ih =>
    have hstep : buildFrom acc (pr :: rest)
        = buildFrom (insertLookup acc pr.number (computeLineMap pr)) rest := rfl
    have hnd2 : (aggKeys (insertLookup acc pr.number (computeLineMap pr))).Nodup := by
      rw [aggKeys_insertLookup]
      by_cases hmem : pr.number ∈ aggKeys acc
      · simpa [hmem] using hnd
      · simp only [hmem, if_false]
        simpa [List.nodup_append] using ⟨hnd, hmem⟩
    rw [hstep, ih _ hnd2]
    have hkeys : (aggKeys (insertLookup acc pr.number (computeLineMap pr))).toFinset
        = insert pr.number (aggKeys acc).toFinset := by
      rw [aggKeys_insertLookup]
      by_cases hmem : pr.number ∈ aggKeys acc
      · simp [hmem, Finset.insert_eq_self.mpr (List.mem_toFinset.mpr hmem)]
      · simp [hmem, List.toFinset_append]
        rw [Finset.union_comm]
        rfl
    rw [hkeys]
    simp only [List.map_cons, List.toFinset_cons]
    rw [Finset.insert_union, Finset.union_insert]

/-- C10: the aggregate lookup is keyed by pull-request number: its value at
`n` is the touched-line map of the last processed descriptor numbered `n`
(a later duplicate replaces an earlier one), and the renderer's denominator
`total_pr_count` is the number of distinct numbers among the processed
descriptors. -/
theorem c10_keyed_by_number (data : List PullRequest) :
    (∀ n, lookupAgg (aggregateLookup data) n
        = Option.map computeLineMap
            ((aggProcessed data).filter (fun pr => pr.number == n)).getLast?) ∧
      total_pr_count (aggregateLookup data)
        = ((aggProcessed data).map (fun pr => pr.number)).toFinset.card := by
  constructor
  · intro n
    rw [aggregateLookup, buildLookup_eq_buildFrom, lookupAgg_buildFrom]
    cases ((aggProcessed data).filter (fun pr => pr.number == n)).getLast? <;> rfl
  · rw [aggregateLookup, buildLookup_eq_buildFrom, total_pr_count,
      length_buildFrom _ _ (by simp [aggKeys])]
    simp [aggKeys]

/-- Witness for C2 at the spec's scenario `old_start = 10, old_line_count = 3`:
the file's entry becomes exactly `[10, 11, 12]`. -/
theorem c2_hunk_records_old_range_witness :
    lookupLines (processHunk [] ⟨some "f.rs", 10, 3⟩) "f.rs"
        = some ((lookupLines ([] : LineLookup) "f.rs").getD [] ++ List.range' 10 3) ∧
      (∀ q, q ≠ "f.rs" →
        lookupLines (processHunk [] ⟨some "f.rs", 10, 3⟩) q
          = lookupLines ([] : LineLookup) q) ∧
      (∀ x, x ∈ List.range' 10 3 ↔ 10 ≤ x ∧ x < 10 + 3) :=
  c2_hunk_records_old_range [] ⟨some "f.rs", 10, 3⟩ "f.rs" rfl (by decide) (by decide)

/-! The synchronizer: fetch condition, idempotence, failure propagation. -/

theorem needsFetch_eq_false_iff (bs : BranchState) (pr : PullRequest) :
    needsFetch bs pr = false ↔ bs pr.number = some pr.head_ref_oid := by
  unfold needsFetch
  cases h : bs pr.number with
  | none => simp
  | some oid =>
    by_cases ho : oid = pr.head_ref_oid <;> simp [ho]

theorem syncStep_fst_of_ne (s : BranchState × Nat) (pr : PullRequest) (n : Nat)
    (hne : n ≠ pr.number) : (syncStep s pr).1 n = s.1 n := by
  unfold syncStep
  by_cases hf : needsFetch s.1 pr <;> simp [hf, doFetch, hne]

theorem foldl_syncStep_fst_of_not_mem (prs : List PullRequest)
    (s : BranchState × Nat) (n : Nat) (hn : n ∉ prs.map (fun pr => pr.number)) :
    (prs.foldl syncStep s).1 n = s.1 n := by
  induction prs generalizing s with
  | nil => rfl
  | cons pr rest ih =>
    simp only [List.map_cons, List.mem_cons, not_or] at hn
    rw [List.foldl_cons, ih (syncStep s pr) hn.2,
      syncStep_fst_of_ne s pr n hn.1]

theorem foldl_syncStep_establishes (prs : List PullRequest) (s : BranchState × Nat)
    (hcons : numbersConsistent prs) :
    ∀ pr ∈ prs, (prs.foldl syncStep s).1 pr.number = some pr.head_ref_oid := by
  induction prs generalizing s with
  | nil => intro pr hpr; cases hpr
  | cons pr0 rest ih =>
    have hcons2 : numbersConsistent rest := by
      intro p hp q hq
      exact hcons p (List.mem_cons_of_mem pr0 hp) q (List.mem_cons_of_mem pr0 hq)
    have hstep : (syncStep s pr0).1 pr0.number = some pr0.head_ref_oid := by
      unfold syncStep
      cases hf : needsFetch s.1 pr0 with
      | true => simp [doFetch]
      | false =>
        simp only [Bool.false_eq_true, if_false]
        exact (needsFetch_eq_false_iff s.1 pr0).mp hf
    intro pr hpr
    rcases List.mem_cons.mp hpr with heq | hmem
    · subst heq
      by_cases hrest : ∃ q ∈ rest, q.number = pr.number
      · obtain ⟨q, hq, hqn⟩ := hrest
        have := ih (syncStep s pr) hcons2 q hq
        rw [List.foldl_cons, ← hqn, this]
        have := hcons q (List.mem_cons_of_mem pr hq) pr (List.mem_cons_self pr rest) hqn
        rw [this]
      · push_neg at hrest
        have hnot : pr.number ∉ rest.map (fun q => q.number) := by
          intro hmem2
          obtain ⟨q, hq, hqn⟩ := List.mem_map.mp hmem2
          exact hrest q hq hqn
        rw [List.foldl_cons, foldl_syncStep_fst_of_not_mem rest _ _ hnot, hstep]
    · rw [List.foldl_cons]
      exact ih (syncStep s pr0) hcons2 pr hmem

theorem foldl_syncStep_of_no_fetch (prs : List PullRequest) (bs : BranchState)
    (c : Nat) (hnf : ∀ pr ∈ prs, needsFetch bs pr = false) :
    prs.foldl syncStep (bs, c) = (bs, c) := by
  induction prs with
  | nil => rfl
  | cons pr rest ih =>
    have h0 : needsFetch bs pr = false := hnf pr (List.mem_cons_self pr rest)
    rw [List.foldl_cons]
    have : syncStep (bs, c) pr = (bs, c) := by
      unfold syncStep
      simp [h0]
    rw [this]
    exact ih (fun q hq => hnf q (List.mem_cons_of_mem pr hq))

/-- C5: the synchronizer fetches a pull request exactly when the local
branch `pull-request-<number>` is absent or its tip commit id differs from
the descriptor's head commit id; and, after a completed run with no upstream
changes, a second run performs zero fetches. -/
theorem c5_fetch_iff_absent_or_stale :
    (∀ (bs : BranchState) (pr : PullRequest),
      needsFetch bs pr = true ↔
        (bs pr.number = none ∨
          ∃ oid, bs pr.number = some oid ∧ oid ≠ pr.head_ref_oid)) ∧
    (∀ (bs : BranchState) (data : List PullRequest),
      numbersConsistent (syncProcessed data) →
      (syncRun ((syncRun (bs, 0) data).1, 0) data).2 = 0) := by
  constructor
  · intro bs pr
    unfold needsFetch
    cases h : bs pr.number with
    | none => simp
    | some oid =>
      by_cases ho : oid = pr.head_ref_oid <;> simp [ho]
  · intro bs data hcons
    have hset : ∀ pr ∈ syncProcessed data,
        (syncRun (bs, 0) data).1 pr.number = some pr.head_ref_oid :=
      foldl_syncStep_establishes (syncProcessed data) (bs, 0) hcons
    have hnf : ∀ pr ∈ syncProcessed data,
        needsFetch (syncRun (bs, 0) data).1 pr = false := by
      intro pr hpr
      exact (needsFetch_eq_false_iff _ pr).mpr (hset pr hpr)
    rw [syncRun, foldl_syncStep_of_no_fetch (syncProcessed data) _ 0 hnf]

/-- Witness for C5: one descriptor, an empty branch store; the first run
fetches, the second run performs zero fetches. -/
theorem c5_fetch_iff_absent_or_stale_witness :
    (syncRun ((syncRun ((fun _ => none : BranchState), 0)
        [⟨1, "main", "feat", "abc", "repo", "user", []⟩]).1, 0)
      [⟨1, "main", "feat", "abc", "repo", "user", []⟩]).2 = 0 :=
  c5_fetch_iff_absent_or_stale.2 (fun _ => none)
    [⟨1, "main", "feat", "abc", "repo", "user", []⟩]
    (by
      intro p hp q hq h
      simp only [syncProcessed, List.take, List.mem_singleton] at hp hq
      subst hp
      subst hq
      rfl)

/-- C7: a fetch that exits with non-zero status aborts the synchronizer at
that pull request, whatever descriptors follow; and a synchronizer error
makes the whole run return that error, so no aggregate lookup and no
rendered rows are produced. -/
theorem c7_failed_fetch_aborts_run :
    (∀ (fetchOk : PullRequest → Bool) (bs : BranchState) (pr : PullRequest)
        (rest : List PullRequest),
      needsFetch bs pr = true → fetchOk pr = false →
      syncRunE fetchOk bs (pr :: rest) = .error (fetchErrMsg pr)) ∧
    (∀ (fetchOk : PullRequest → Bool) (bs : BranchState) (fs : List FsEntry)
        (data : List PullRequest) (e : String),
      syncRunE fetchOk bs (syncProcessed data) = .error e →
      runPipeline fetchOk bs fs data = .error e) := by
  constructor
  · intro fetchOk bs pr rest hnf hko
    simp [syncRunE, hnf, hko]
  · intro fetchOk bs fs data e he
    simp [runPipeline, he]

/-- Witness for C7: with an absent local branch and a failing fetch, the
loop errors out at the first descriptor and the pipeline returns that same
error instead of rendered rows. -/
theorem c7_failed_fetch_aborts_run_witness :
    syncRunE (fun _ => false) (fun _ => none)
        [⟨2, "main", "feat", "def", "repo", "user", []⟩]
      = .error (fetchErrMsg ⟨2, "main", "feat", "def", "repo", "user", []⟩) ∧
    runPipeline (fun _ => false) (fun _ => none) []
        [⟨2, "main", "feat", "def", "repo", "user", []⟩]
      = .error (fetchErrMsg ⟨2, "main", "feat", "def", "repo", "user", []⟩) := by
  have h1 := c7_failed_fetch_aborts_run.1 (fun _ => false) (fun _ => none)
    ⟨2, "main", "feat", "def", "repo", "user", []⟩ [] rfl rfl
  refine ⟨h1, ?_⟩
  exact c7_failed_fetch_aborts_run.2 (fun _ => false) (fun _ => none) []
    [⟨2, "main", "feat", "def", "repo", "user", []⟩] _ h1

/-! The renderer's filesystem walk: membership and ordering. -/

theorem FsEntry.recOnMem {P : FsEntry → Prop} (hf : ∀ n, P (FsEntry.file n))
    (hd : ∀ n cs, (∀ c ∈ cs, P c) → P (FsEntry.dir n cs)) : ∀ t, P t
  | .file n => hf n
  | .dir n cs => hd n cs (fun c hc =>
      have : sizeOf c < sizeOf (FsEntry.dir n cs) := by
        have := List.sizeOf_lt_of_mem hc
        simp only [FsEntry.dir.sizeOf_spec]
        omega
      FsEntry.recOnMem hf hd c)
termination_by t => sizeOf t

theorem sortEntry_name (t : FsEntry) : (sortEntry t).name = t.name := by
  cases t <;> rfl

theorem sortList_eq_map (cs : List FsEntry) : sortList cs = cs.map sortEntry := by
  induction cs with
  | nil => rfl
  | cons c cs ih => rw [sortList, ih, List.map_cons]

theorem insertByName_perm (e : FsEntry) (l : List FsEntry) :
    List.Perm (insertByName e l) (e :: l) := by
  induction l with
  | nil => exact List.Perm.refl _
  | cons x xs ih =>
    by_cases h : e.name ≤ x.name
    · simp [insertByName, h]
    · simp only [insertByName, if_neg h]
      exact List.Perm.trans (List.Perm.cons x ih) (List.Perm.swap e x xs)

theorem sortByName_perm (l : List FsEntry) : List.Perm (sortByName l) l := by
  induction l with
  | nil => exact List.Perm.refl _
  | cons c l ih =>
    exact List.Perm.trans (insertByName_perm c (sortByName l)) (List.Perm.cons c ih)

theorem mem_sortByName (l : List FsEntry) (c : FsEntry) :
    c ∈ sortByName l ↔ c ∈ l :=
  (sortByName_perm l).mem_iff

theorem insertByName_sorted (e : FsEntry) (l : List FsEntry)
    (h : l.Pairwise (fun a b => a.name ≤ b.name)) :
    (insertByName e l).Pairwise (fun a b => a.name ≤ b.name) := by
  induction l with
  | nil => simp [insertByName]
  | cons x xs ih =>
    rcases List.pairwise_cons.mp h with ⟨hx, hxs⟩
    by_cases hle : e.name ≤ x.name
    · simp only [insertByName, if_pos hle]
      refine List.pairwise_cons.mpr ⟨?_, h⟩
      intro b hb
      rcases List.mem_cons.mp hb with rfl | hbmem
      · exact hle
      · exact le_trans hle (hx b hbmem)
    · simp only [insertByName, if_neg hle]
      refine List.pairwise_cons.mpr ⟨?_, ih hxs⟩
      intro b hb
      rcases List.mem_cons.mp ((insertByName_perm e xs).mem_iff.mp hb) with rfl | hbmem
      · exact le_of_not_le hle
      · exact hx b hbmem

theorem sortByName_sorted_le (l : List FsEntry) :
    (sortByName l).Pairwise (fun a b => a.name ≤ b.name) := by
  induction l with
  | nil => simp [sortByName]
  | cons c l ih => exact insertByName_sorted c (sortByName l) ih

theorem mem_walkList (pre : List String) (cs : List FsEntry) (p : List String) :
    p ∈ walkList pre cs ↔ ∃ c ∈ cs, p ∈ walkEntry pre c := by
  induction cs with
  | nil => simp [walkList]
  | cons c cs ih => simp [walkList, List.mem_append, ih]

theorem mem_allPathsList (cs : List FsEntry) (q : List String) :
    q ∈ allPathsList cs ↔ ∃ c ∈ cs, q ∈ allPathsEntry c := by
  induction cs with
  | nil => simp [allPathsList]
  | cons c cs ih => simp [allPathsList, List.mem_append, ih]

theorem wfList_mem (cs : List FsEntry) (hwf : wfList cs = true) :
    ∀ c ∈ cs, wfEntry c = true := by
  induction cs with
  | nil => intro c hc; cases hc
  | cons c cs ih =>
    rw [wfList, Bool.and_eq_true] at hwf
    intro c2 hc2
    rcases List.mem_cons.mp hc2 with rfl | hmem
    · exact hwf.1
    · exact ih hwf.2 c2 hmem

theorem walkEntry_shape : ∀ (t : FsEntry) (pre p : List String),
    p ∈ walkEntry pre t →
    ∃ r, p = pre ++ t.name :: r ∧ is_hidden t.name = false := by
  intro t
  induction t using FsEntry.recOnMem with
  | hf n =>
    intro pre p hp
    by_cases hhid : is_hidden n
    · simp [walkEntry, hhid] at hp
    · simp only [walkEntry, hhid, Bool.false_eq_true, if_false, List.mem_singleton] at hp
      exact ⟨[], by simp [hp, FsEntry.name], by simpa [FsEntry.name] using hhid⟩
  | hd n cs ih =>
    intro pre p hp
    by_cases hhid : is_hidden n
    · simp [walkEntry, hhid] at hp
    · simp only [walkEntry, hhid, Bool.false_eq_true, if_false] at hp
      obtain ⟨c, hc, hpc⟩ := (mem_walkList (pre ++ [n]) cs p).mp hp
      obtain ⟨r, hr, -⟩ := ih c hc (pre ++ [n]) p hpc
      refine ⟨c.name :: r, ?_, by simpa [FsEntry.name] using hhid⟩
      simp [hr, FsEntry.name]

theorem mem_walkEntry_iff : ∀ (t : FsEntry) (pre p : List String),
    p ∈ walkEntry pre t ↔
      ∃ q, p = pre ++ q ∧ q ∈ allPathsEntry t ∧ ∀ s ∈ q, is_hidden s = false := by
  intro t
  induction t using FsEntry.recOnMem with
  | hf n =>
    intro pre p
    by_cases hhid : is_hidden n
    · simp only [walkEntry, hhid, if_true, List.not_mem_nil, false_iff]
      rintro ⟨q, -, hq, hnh⟩
      simp only [allPathsEntry, List.mem_singleton] at hq
      subst hq
      have := hnh n (List.mem_singleton_self n)
      rw [this] at hhid
      cases hhid
    · simp only [walkEntry, hhid, Bool.false_eq_true, if_false, List.mem_singleton,
        allPathsEntry]
      constructor
      · rintro rfl
        exact ⟨[n], rfl, rfl, by
          intro s hs
          rw [List.mem_singleton] at hs
          subst hs
          simpa using hhid⟩
      · rintro ⟨q, rfl, hq, -⟩
        subst hq
        rfl
  | hd n cs ih =>
    intro pre p
    by_cases hhid : is_hidden n
    · simp only [walkEntry, hhid, if_true, List.not_mem_nil, false_iff]
      rintro ⟨q, -, hq, hnh⟩
      simp only [allPathsEntry, List.mem_map] at hq
      obtain ⟨q2, -, hq2⟩ := hq
      have := hnh n (by rw [← hq2]; exact List.mem_cons_self n q2)
      rw [this] at hhid
      cases hhid
    · simp only [walkEntry, hhid, Bool.false_eq_true, if_false]
      rw [mem_walkList]
      constructor
      · rintro ⟨c, hc, hpc⟩
        obtain ⟨q, rfl, hq, hnh⟩ := (ih c hc (pre ++ [n]) p).mp hpc
        refine ⟨n :: q, by simp, ?_, ?_⟩
        · simp only [allPathsEntry, List.mem_map]
          exact ⟨q, (mem_allPathsList cs q).mpr ⟨c, hc, hq⟩, rfl⟩
        · intro s hs
          rcases List.mem_cons.mp hs with rfl | hsq
          · simpa using hhid
          · exact hnh s hsq
      · rintro ⟨q, rfl, hq, hnh⟩
        simp only [allPathsEntry, List.mem_map] at hq
        obtain ⟨q2, hq2, rfl⟩ := hq
        obtain ⟨c, hc, hcq⟩ := (mem_allPathsList cs q2).mp hq2
        refine ⟨c, hc, ?_⟩
        rw [ih c hc (pre ++ [n]) (pre ++ n :: q2)]
        refine ⟨q2, by simp, hcq, ?_⟩
        intro s hs
        exact hnh s (List.mem_cons_of_mem n hs)

theorem mem_allPathsEntry_sortEntry : ∀ (t : FsEntry) (q : List String),
    q ∈ allPathsEntry (sortEntry t) ↔ q ∈ allPathsEntry t := by
  intro t
  induction t using FsEntry.recOnMem with
  | hf n => intro q; rfl
  | hd n cs ih =>
    intro q
    simp only [sortEntry, allPathsEntry, List.mem_map]
    constructor
    · rintro ⟨q2, hq2, rfl⟩
      obtain ⟨c, hc, hcq⟩ := (mem_allPathsList _ q2).mp hq2
      rw [mem_sortByName, sortList_eq_map, List.mem_map] at hc
      obtain ⟨c0, hc0, rfl⟩ := hc
      rw [ih c0 hc0] at hcq
      exact ⟨q2, (mem_allPathsList cs q2).mpr ⟨c0, hc0, hcq⟩, rfl⟩
    · rintro ⟨q2, hq2, rfl⟩
      obtain ⟨c0, hc0, hcq⟩ := (mem_allPathsList cs q2).mp hq2
      refine ⟨q2, (mem_allPathsList _ q2).mpr ⟨sortEntry c0, ?_, ?_⟩, rfl⟩
      · rw [mem_sortByName, sortList_eq_map]
        exact List.mem_map_of_mem sortEntry hc0
      · rw [ih c0 hc0]
        exact hcq

theorem mem_repoWalk (cs : List FsEntry) (p : List String) :
    p ∈ repoWalk cs ↔ p ∈ allPathsList cs ∧ ∀ s ∈ p, is_hidden s = false := by
  rw [repoWalk, mem_walkList]
  constructor
  · rintro ⟨c, hc, hp⟩
    rw [mem_sortByName, sortList_eq_map, List.mem_map] at hc
    obtain ⟨c0, hc0, rfl⟩ := hc
    obtain ⟨q, rfl, hq, hnh⟩ := (mem_walkEntry_iff (sortEntry c0) [] p).mp hp
    rw [mem_allPathsEntry_sortEntry] at hq
    exact ⟨(mem_allPathsList cs p).mpr ⟨c0, hc0, hq⟩, hnh⟩
  · rintro ⟨hmem, hnh⟩
    obtain ⟨c0, hc0, hq⟩ := (mem_allPathsList cs p).mp hmem
    refine ⟨sortEntry c0, ?_, ?_⟩
    · rw [mem_sortByName, sortList_eq_map]
      exact List.mem_map_of_mem sortEntry hc0
    · rw [mem_walkEntry_iff]
      exact ⟨p, by simp, (mem_allPathsEntry_sortEntry c0 p).mpr hq, hnh⟩

theorem pathLexLt_append_left (pre p q : List String) (h : pathLexLt p q = true) :
    pathLexLt (pre ++ p) (pre ++ q) = true := by
  induction pre with
  | nil => exact h
  | cons a pre ih => simp [pathLexLt, lt_irrefl, ih]

theorem pathLexLt_cons_lt (a b : String) (p q : List String) (h : a < b) :
    pathLexLt (a :: p) (b :: q) = true := by
  simp [pathLexLt, h]

theorem walkList_pairwise_of (l : List FsEntry) (pre : List String)
    (hsort : l.Pairwise (fun a b => a.name < b.name))
    (hwithin : ∀ c ∈ l,
      (walkEntry pre c).Pairwise (fun p q => pathLexLt p q = true)) :
    (walkList pre l).Pairwise (fun p q => pathLexLt p q = true) := by
  induction l with
  | nil => simp [walkList]
  | cons c l ih =>
    rcases List.pairwise_cons.mp hsort with ⟨hc, hl⟩
    rw [walkList, List.pairwise_append]
    refine ⟨hwithin c (List.mem_cons_self c l),
      ih hl (fun c2 h2 => hwithin c2 (List.mem_cons_of_mem c h2)), ?_⟩
    intro p hp q hq
    obtain ⟨c2, hc2, hq2⟩ := (mem_walkList pre l q).mp hq
    obtain ⟨r1, hp1, -⟩ := walkEntry_shape c pre p hp
    obtain ⟨r2, hq1, -⟩ := walkEntry_shape c2 pre q hq2
    subst hp1
    subst hq1
    exact pathLexLt_append_left pre _ _ (pathLexLt_cons_lt _ _ _ _ (hc c2 hc2))

theorem sorted_forest_names_lt (cs : List FsEntry)
    (hnd : (cs.map FsEntry.name).Nodup) :
    (sortByName (sortList cs)).Pairwise (fun a b => a.name < b.name) := by
  have hperm : List.Perm (sortByName (sortList cs)) (sortList cs) :=
    sortByName_perm _
  have hnames : ((sortByName (sortList cs)).map FsEntry.name).Nodup := by
    refine (List.Perm.nodup_iff (List.Perm.map FsEntry.name hperm)).mpr ?_
    rw [sortList_eq_map, List.map_map]
    have hcomp : (FsEntry.name ∘ sortEntry) = FsEntry.name := funext sortEntry_name
    rw [hcomp]
    exact hnd
  have hle := sortByName_sorted_le (sortList cs)
  have hne : (sortByName (sortList cs)).Pairwise
      (fun a b => FsEntry.name a ≠ FsEntry.name b) :=
    List.pairwise_map.mp hnames
  exact (hle.and hne).imp (fun h => lt_of_le_of_ne h.1 h.2)

theorem walkEntry_pairwise_sorted : ∀ (t : FsEntry), wfEntry t = true →
    ∀ pre, (walkEntry pre (sortEntry t)).Pairwise
      (fun p q => pathLexLt p q = true) := by
  intro t
  induction t using FsEntry.recOnMem with
  | hf n =>
    intro hwf pre
    by_cases hhid : is_hidden n <;> simp [sortEntry, walkEntry, hhid]
  | hd n cs ih =>
    intro hwf pre
    simp only [wfEntry, Bool.and_eq_true, decide_eq_true_eq] at hwf
    simp only [sortEntry, walkEntry]
    by_cases hhid : is_hidden n
    · simp [hhid]
    · simp only [hhid, Bool.false_eq_true, if_false]
      apply walkList_pairwise_of
      · exact sorted_forest_names_lt cs hwf.1
      · intro c hc
        rw [mem_sortByName, sortList_eq_map, List.mem_map] at hc
        obtain ⟨c0, hc0, rfl⟩ := hc
        exact ih c0 hc0 (wfList_mem cs hwf.2 c0 hc0) _

/-- C8: the renderer's tree walk yields exactly the root-relative paths of
the non-directory entries that have no hidden segment (an entry whose name
starts with the marker is pruned together with everything below it), and,
for sibling-distinct names, the paths come out in lexical file-name
order. -/
theorem c8_tree_walk_hidden_and_sorted (cs : List FsEntry)
    (hwf : wfForest cs = true) :
    (∀ p, p ∈ repoWalk cs ↔
      (p ∈ allPathsList cs ∧ ∀ s ∈ p, is_hidden s = false)) ∧
    (repoWalk cs).Pairwise (fun p q => pathLexLt p q = true) := by
  constructor
  · intro p
    exact mem_repoWalk cs p
  · simp only [wfForest, Bool.and_eq_true, decide_eq_true_eq] at hwf
    rw [repoWalk]
    apply walkList_pairwise_of
    · exact sorted_forest_names_lt cs hwf.1
    · intro c hc
      rw [mem_sortByName, sortList_eq_map, List.mem_map] at hc
      obtain ⟨c0, hc0, rfl⟩ := hc
      exact walkEntry_pairwise_sorted c0 (wfList_mem cs hwf.2 c0 hc0) []

/-- Witness for C8 on a concrete tree with a source directory, a hidden file
and a plain file. -/
theorem c8_tree_walk_hidden_and_sorted_witness :
    (∀ p, p ∈ repoWalk [FsEntry.dir "src" [FsEntry.file "main.rs"],
        FsEntry.file ".hidden", FsEntry.file "a.txt"] ↔
      (p ∈ allPathsList [FsEntry.dir "src" [FsEntry.file "main.rs"],
          FsEntry.file ".hidden", FsEntry.file "a.txt"] ∧
        ∀ s ∈ p, is_hidden s = false)) ∧
    (repoWalk [FsEntry.dir "src" [FsEntry.file "main.rs"],
        FsEntry.file ".hidden", FsEntry.file "a.txt"]).Pairwise
      (fun p q => pathLexLt p q = true) :=
  c8_tree_walk_hidden_and_sorted
    [FsEntry.dir "src" [FsEntry.file "main.rs"],
      FsEntry.file ".hidden", FsEntry.file "a.txt"]
    (by simp [wfForest, wfList, wfEntry, FsEntry.name])
